import Mathlib

/-!
# Verification of the git-quick-clone parser and clone orchestrator

Shallow embedding of `skills/git-quick-clone/src/git_quick_clone/{parser,clone,main}.py`.
Python strings are modelled as `List Char`; each Python string operation used by the
source is given a faithful Lean counterpart, and the parser / cloner are translated
function by function.  The clone orchestrator's side effects are modelled as the list
of shell command strings it would issue, in order.
-/

/-- Python strings are modelled as lists of characters. -/
abbrev Str := List Char

instance {ε α : Type _} [DecidableEq ε] [DecidableEq α] : DecidableEq (Except ε α) :=
  fun x y =>
    match x, y with
    | .ok a, .ok b =>
      if h : a = b then .isTrue (by rw [h]) else .isFalse (by intro hc; cases hc; exact h rfl)
    | .ok _, .error _ => .isFalse (by intro h; cases h)
    | .error _, .ok _ => .isFalse (by intro h; cases h)
    | .error e, .error f =>
      if h : e = f then .isTrue (by rw [h]) else .isFalse (by intro hc; cases hc; exact h rfl)

/-- Convert a Lean string literal to the `List Char` model. -/
def chars (s : String) : Str := s.data

namespace PyStr

/-- Python `str.split(sep)` for a single-character separator: splits at every
occurrence, keeping empty pieces; `"".split(c) == [""]`. -/
def splitOnChar (c : Char) : Str → List Str
  | [] => [[]]
  | x :: xs =>
    if x = c then [] :: splitOnChar c xs
    else
      match splitOnChar c xs with
      | [] => [[x]]
      | h :: t => (x :: h) :: t

/-- Python `sep.join(parts)` for a single-character separator. -/
def joinSep (c : Char) : List Str → Str
  | [] => []
  | [p] => p
  | p :: ps => p ++ c :: joinSep c ps

/-- Python `s.startswith(pre)`. -/
def startsWithL (s pre : Str) : Bool := pre.isPrefixOf s

/-- Python `s.endswith(suf)`. -/
def endsWithL (s suf : Str) : Bool := suf.isSuffixOf s

/-- Python `pat in s` (substring containment). -/
def containsSub (s pat : Str) : Bool :=
  match s with
  | [] => pat.isEmpty
  | _ :: xs => pat.isPrefixOf s || containsSub xs pat

/-- Python `s.lstrip(c)` for a single strip character. -/
def lstripChar (c : Char) (s : Str) : Str := s.dropWhile (· = c)

/-- Python `s.rstrip(c)` for a single strip character. -/
def rstripChar (c : Char) (s : Str) : Str := (s.reverse.dropWhile (· = c)).reverse

/-- Python `s.strip(c)` for a single strip character. -/
def stripChar (c : Char) (s : Str) : Str := rstripChar c (lstripChar c s)

/-- Python `s.removesuffix(suf)`. -/
def removesuffix (s suf : Str) : Str :=
  if endsWithL s suf then s.take (s.length - suf.length) else s

/-- Split at the first occurrence of `c`: returns the part before and the part
after (separator dropped); if `c` does not occur, returns `(s, [])`, together
with a flag telling whether the separator was found.  Mirrors `str.partition`. -/
def splitFirst (c : Char) : Str → Str × Str × Bool
  | [] => ([], [], false)
  | x :: xs =>
    if x = c then ([], xs, true)
    else
      let r := splitFirst c xs
      (x :: r.1, r.2.1, r.2.2)

/-- Python truthiness of an optional string: `None` and `""` are falsy. -/
def pyTruthy : Option Str → Bool
  | none => false
  | some s => !s.isEmpty

end PyStr

open PyStr

/-! ## `urllib.parse` model

Only the fragments of `urlparse` / `urlunparse` exercised by the source are
modelled: URLs that start with `https://` (both call sites guard on that
before parsing).  `urlparse` splits off the fragment at the first `#`, the
query at the first `?`, takes the netloc up to the first `/`, and splits
`params` from the last path segment at the first `;` at or after the last
`/`. -/

structure UrlParts where
  scheme : Str
  netloc : Str
  path : Str
  params : Str
  query : Str
  fragment : Str
deriving DecidableEq, Repr

/-- Split `params` off a path, as CPython `_splitparams` does (only the last
segment is searched for `;`). -/
def splitParams (p : Str) : Str × Str :=
  let revSeg := p.reverse.takeWhile (· ≠ '/')
  let seg := revSeg.reverse
  let pre := p.take (p.length - seg.length)
  let r := splitFirst ';' seg
  if r.2.2 then (pre ++ r.1, r.2.1) else (p, [])

/-- Model of `urllib.parse.urlparse` on a URL known to start with `https://`. -/
def urlparseHttps (u : Str) : UrlParts :=
  let rest := u.drop 8
  let fr := splitFirst '#' rest
  let qr := splitFirst '?' fr.1
  let netloc := qr.1.takeWhile (· ≠ '/')
  let pathAll := qr.1.dropWhile (· ≠ '/')
  let pp := splitParams pathAll
  ⟨chars "https", netloc, pp.1, pp.2, qr.2.1, fr.2.1⟩

/-- Model of `urllib.parse.urlunparse`. -/
def urlunparse (scheme netloc path params query fragment : Str) : Str :=
  let url := if params ≠ [] then path ++ ';' :: params else path
  let url :=
    if netloc ≠ [] ∨ (url ≠ [] ∧ url.take 2 = chars "//") then
      chars "//" ++ netloc ++ (if url ≠ [] ∧ url.take 1 ≠ chars "/" then '/' :: url else url)
    else url
  let url := if scheme ≠ [] then scheme ++ ':' :: url else url
  let url := if query ≠ [] then url ++ '?' :: query else url
  if fragment ≠ [] then url ++ '#' :: fragment else url

/-! ## `parser.py` -/

/-- `RepoInfo` dataclass from `parser.py`. -/
structure RepoInfo where
  url : Str
  dest_dir : Str
  user : Str
  repo : Str
  branch : Option Str := none
  sparse_path : Option Str := none
  access_token : Option Str := none
deriving DecidableEq, Repr

/-- The distinct `ValueError`s raised by `parser.py`. -/
inductive ParseError where
  | unsupportedFormat
  | shorthandTooManySlashes
  | unsupportedHost (host : Str)
  | couldNotDeduce
  | couldNotDeduceSsh
deriving DecidableEq, Repr

/-- `RepoURLParser._parse_shorthand`: handle `user/repo`. -/
def parseShorthand (repo_url : Str) : Except ParseError RepoInfo :=
  if repo_url.count '/' ≠ 1 then .error .shorthandTooManySlashes
  else
    match splitOnChar '/' repo_url with
    | [user, repo] =>
      .ok { url := chars "https://github.com/" ++ repo_url
            dest_dir := chars "github.com/" ++ repo_url
            user := user
            repo := repo }
    | _ => .error .unsupportedFormat

/-- The slash-separated path segments `_parse_https` works on:
`parsed.path.strip("/").split("/")`. -/
def httpsParts (repo_url : Str) : List Str :=
  splitOnChar '/' (stripChar '/' (urlparseHttps repo_url).path)

/-- The `RepoInfo` built by the success path of `_parse_https`. -/
def httpsInfo (repo_url : Str) : RepoInfo :=
  let parsed := urlparseHttps repo_url
  let host := parsed.netloc
  let parts := httpsParts repo_url
  let user := parts.getD 0 []
  let repo := removesuffix (parts.getD 1 []) (chars ".git")
  let user_repo := user ++ '/' :: repo
  let br_sp : Option Str × Option Str :=
    if 3 < parts.length ∧ parts.getD 2 [] = chars "tree" then
      (some (parts.getD 3 []),
       if 4 < parts.length then some (joinSep '/' (parts.drop 4)) else none)
    else if 3 < parts.length ∧ parts.getD 2 [] = chars "blob" then
      (some (parts.getD 3 []),
       if 4 < parts.length then some (joinSep '/' (parts.drop 4).dropLast)
       else some [])
    else (none, none)
  let base_url := urlunparse (chars "https") parsed.netloc ('/' :: user_repo) [] [] []
  { url := base_url
    dest_dir := host ++ '/' :: user_repo
    user := user
    repo := repo
    branch := br_sp.1
    sparse_path := br_sp.2 }

/-- `RepoURLParser._parse_https`: full HTTPS URLs for GitHub and GitLab,
including tree/blob paths. -/
def parseHttps (repo_url : Str) : Except ParseError RepoInfo :=
  let parsed := urlparseHttps repo_url
  let host := parsed.netloc
  if host ≠ chars "github.com" ∧ host ≠ chars "gitlab.com" then
    .error (.unsupportedHost host)
  else
    let parts := httpsParts repo_url
    if parts.length < 2 then .error .couldNotDeduce
    else .ok (httpsInfo repo_url)

/-- In `re.search` with an anchored pattern, `$` also matches just before one
trailing newline; strip it before matching. -/
def sshStripNewline (s : Str) : Str :=
  if endsWithL s (chars "\n") then s.dropLast else s

/-- The repo group of the SSH regex: `([^/\s]+?)(?:\.git)?$` strips one
trailing `.git` unless that would leave the (non-empty) group empty. -/
def sshRepoOf (tail : Str) : Str :=
  if endsWithL tail (chars ".git") ∧ tail.length > 4 then
    tail.take (tail.length - 4)
  else tail

/-- `RepoURLParser._parse_ssh`: `git@<host>:user/repo(.git)`, via the regex
`^git@(github\.com|gitlab\.com):([^/]+)/([^/\s]+?)(?:\.git)?$` under
`re.search`. -/
def parseSsh (repo_url : Str) : Except ParseError RepoInfo :=
  let s := sshStripNewline repo_url
  if !startsWithL s (chars "git@") then .error .couldNotDeduceSsh
  else
    let afterAt := s.drop 4
    let hosts := [chars "github.com", chars "gitlab.com"]
    match hosts.find? (fun h => startsWithL afterAt (h ++ [':'])) with
    | none => .error .couldNotDeduceSsh
    | some host =>
      let rest := afterAt.drop (host.length + 1)
      let user := rest.takeWhile (· ≠ '/')
      let tail := (rest.dropWhile (· ≠ '/')).drop 1
      if user.isEmpty ∨ !rest.any (· = '/') ∨ tail.isEmpty ∨
          tail.any (fun c => c = '/' ∨ c.isWhitespace) then
        .error .couldNotDeduceSsh
      else
        let user_repo := user ++ '/' :: sshRepoOf tail
        .ok { url := chars "git@" ++ host ++ ':' :: user_repo
              dest_dir := host ++ '/' :: user_repo
              user := user
              repo := sshRepoOf tail }

/-- The dispatch guard for the shorthand branch of `RepoURLParser.parse`:
`not any(prefix in repo_url for prefix in ["://", "@"]) and "/" in repo_url`. -/
def shorthandShape (repo_url : Str) : Bool :=
  (!containsSub repo_url (chars "://") && !containsSub repo_url (chars "@")) &&
    containsSub repo_url (chars "/")

/-- Format-specific extraction of `RepoURLParser.parse`, before the shared
suffix normalization. -/
def parseFormat (repo_url : Str) : Except ParseError RepoInfo :=
  if shorthandShape repo_url then parseShorthand repo_url
  else if startsWithL repo_url (chars "https://") then parseHttps repo_url
  else if startsWithL repo_url (chars "git@") then parseSsh repo_url
  else .error .unsupportedFormat

/-- Url half of the post-processing of `RepoURLParser.parse`: append `.git`
when missing. -/
def normalizeUrl (u : Str) : Str :=
  if !endsWithL u (chars ".git") then u ++ chars ".git" else u

/-- Destination half of the post-processing of `RepoURLParser.parse`: strip
one trailing `.git` (`info.dest_dir[:-4]`) when present. -/
def normalizeDest (d : Str) : Str :=
  if endsWithL d (chars ".git") then d.take (d.length - 4) else d

/-- Post-processing of `RepoURLParser.parse`.  The Python code mutates
`info.url` and then `info.dest_dir`; the two updates touch independent
fields. -/
def normalizeInfo (info : RepoInfo) : RepoInfo :=
  { info with url := normalizeUrl info.url, dest_dir := normalizeDest info.dest_dir }

/-- `RepoURLParser.parse` / `parse_repo_url`. -/
def parseRepoUrl (repo_url : Str) : Except ParseError RepoInfo :=
  (parseFormat repo_url).map normalizeInfo

/-! ## `clone.py`

The cloner's side effects are the shell commands it runs, modelled as the list
of command strings in execution order. -/

/-- `inject_token`: inject an access token into an HTTPS GitHub URL.  A pure
function of the URL string and the token; the `RepoInfo` descriptor is not an
input and is never modified. -/
def inject_token (url : Str) (token : Option Str) : Str :=
  if !pyTruthy token ∨ !startsWithL url (chars "https://") then url
  else
    let parsed := urlparseHttps url
    if parsed.netloc ≠ chars "github.com" then url
    else
      let new_netloc := token.getD [] ++ '@' :: parsed.netloc
      urlunparse parsed.scheme new_netloc parsed.path parsed.params parsed.query parsed.fragment

/-- Commands of `RepoCloner._init_repo`. -/
def initRepoCommands (info : RepoInfo) : List Str :=
  [chars "git init",
   chars "git remote add origin " ++ inject_token info.url info.access_token]

/-- Commands of `RepoCloner._fetch_sparse`. -/
def fetchSparseCommands (sparse_path : Str) : List Str :=
  [chars "git config remote.origin.promisor true",
   chars "git config remote.origin.partialclonefilter \"tree:0\"",
   chars "git fetch --filter=tree:0 origin",
   chars "git sparse-checkout init --cone",
   chars "git config core.sparseCheckout true",
   chars "git sparse-checkout set " ++ sparse_path]

/-- Commands of `RepoCloner._fetch`: strategy selection between full, sparse,
shallow and the default treeless partial fetch. -/
def fetchCommands (info : RepoInfo) (shallow_depth : Option Int) (full : Bool) : List Str :=
  if full then [chars "git fetch origin"]
  else
    match info.sparse_path with
    | some sparse_path => fetchSparseCommands sparse_path
    | none =>
      match shallow_depth with
      | some d => [chars "git fetch --depth=" ++ (toString d).data ++ chars " origin"]
      | none => [chars "git fetch --filter=tree:0 origin"]

/-- Commands of `RepoCloner._setup_branch`. -/
def setupBranchCommands : List Str :=
  [chars "git remote set-head origin --auto",
   chars "git branch -f master origin/HEAD",
   chars "git checkout master",
   chars "git branch --set-upstream-to=origin/HEAD master",
   chars "git config push.default upstream"]

/-- Commands of `RepoCloner._init_submodules`. -/
def initSubmoduleCommands (shallow_depth : Option Int) (full : Bool) : List Str :=
  if full ∨ shallow_depth ≠ none then
    [chars "git submodule update --init --recursive"]
  else
    [chars "git submodule update --init --recursive --filter=tree:0"]

/-- The submodule portion of `RepoCloner.clone`: `_init_submodules` runs only
under `if not self.repo_info.sparse_path` (Python truthiness, so an empty
string behaves like absence here). -/
def submodulePart (info : RepoInfo) (shallow_depth : Option Int) (full : Bool) : List Str :=
  if !pyTruthy info.sparse_path then initSubmoduleCommands shallow_depth full else []

/-- All commands issued by `RepoCloner.clone`, in order. -/
def cloneCommands (info : RepoInfo) (shallow_depth : Option Int) (full : Bool) : List Str :=
  initRepoCommands info ++ fetchCommands info shallow_depth full ++ setupBranchCommands ++
    submodulePart info shallow_depth full

/-! ## `main.py`

`main.clone` imports `get_remote_url` and `_normalize_clone_url` from
`clone.py`, but those two definitions are not present in the source tree (only
this caller is). -/

/-- Modelled from the spec: `_normalize_clone_url` is absent from the source
tree; per the spec the comparison is made "with credentials/suffix normalized
away", so this strips the user-info component of an HTTPS URL and one trailing
`.git`. -/
def normalizeCloneUrl (u : Str) : Str :=
  let u' :=
    if startsWithL u (chars "https://") then
      let parsed := urlparseHttps u
      let host := (parsed.netloc.reverse.takeWhile (· ≠ '@')).reverse
      urlunparse parsed.scheme host parsed.path parsed.params parsed.query parsed.fragment
    else u
  removesuffix u' (chars ".git")

/-- Modelled from the spec: `get_remote_url` is absent from the source tree; it
reads the destination's configured `origin` URL (supplied here as the
`raw` argument) and yields it in the same normalized form that the
caller compares against. -/
def get_remote_url (raw : Str) : Str := normalizeCloneUrl raw

/-- Outcome of the `main.clone` entry point. -/
inductive CloneOutcome where
  | alreadyCloned
  | conflict (existing : Str)
  | cloned
deriving DecidableEq, Repr

/-- The destination-conflict check and dispatch of `main.clone`.
`git_dir_exists` models `(dest / ".git").is_dir()`; `existing_raw` is the
`origin` URL configured in the existing repository.  The second component is
the list of remote commands issued. -/
def mainClone (info : RepoInfo) (git_dir_exists : Bool) (existing_raw : Str)
    (shallow_depth : Option Int) (full : Bool) : CloneOutcome × List Str :=
  if git_dir_exists then
    let existing := get_remote_url existing_raw
    let expected := normalizeCloneUrl info.url
    if existing = expected then (.alreadyCloned, [])
    else (.conflict existing, [])
  else
    (.cloned, cloneCommands info shallow_depth full)

/-! ## Helper lemmas about the string-operation models -/

namespace PyStr

theorem endsWithL_iff {s p : Str} : endsWithL s p = true ↔ ∃ t, t ++ p = s := by
  simp only [endsWithL, List.isSuffixOf_iff_suffix]
  exact Iff.rfl

theorem endsWithL_append (t p : Str) : endsWithL (t ++ p) p = true := by
  simp [endsWithL]

theorem startsWithL_append (p t : Str) : startsWithL (p ++ t) p = true := by
  simp [startsWithL]

theorem endsWithL_append_cancel {t g' g : Str} :
    endsWithL (t ++ g) (g' ++ g) = true ↔ endsWithL t g' = true := by
  simp only [endsWithL, List.isSuffixOf_iff_suffix]
  constructor
  · intro h
    obtain ⟨a, ha⟩ := h
    rw [← List.append_assoc] at ha
    exact ⟨a, List.append_cancel_right ha⟩
  · intro h
    obtain ⟨a, ha⟩ := h
    exact ⟨a, by rw [← ha]; simp⟩

theorem containsSub_iff {s pat : Str} : containsSub s pat = true ↔ pat <:+: s := by
  induction s with
  | nil =>
    constructor
    · intro h
      have hp : pat = [] := by
        cases pat with
        | nil => rfl
        | cons a l => simp [containsSub] at h
      subst hp
      exact List.infix_refl []
    · intro h
      have hp : pat = [] := List.eq_nil_of_infix_nil h
      subst hp
      rfl
  | cons x xs ih =>
    simp only [containsSub, Bool.or_eq_true, List.isPrefixOf_iff_prefix, ih]
    constructor
    · rintro (h | h)
      · exact h.isInfix
      · exact List.infix_cons h
    · intro h
      rcases List.infix_cons_iff.mp h with h' | h'
      · exact Or.inl h'
      · exact Or.inr h'

theorem containsSub_append_right {s pat : Str} (t : Str)
    (h : containsSub s pat = true) : containsSub (s ++ t) pat = true := by
  rw [containsSub_iff] at h ⊢
  rcases h with ⟨a, b, rfl⟩
  exact ⟨a, b ++ t, by simp⟩

theorem containsSub_singleton_iff {s : Str} {c : Char} :
    containsSub s [c] = true ↔ c ∈ s := by
  rw [containsSub_iff]
  constructor
  · intro h
    exact h.sublist.subset (List.mem_singleton_self c)
  · intro h
    rcases List.append_of_mem h with ⟨a, b, hab⟩
    exact ⟨a, b, by simp [hab]⟩

theorem count_le_of_containsSub {s pat : Str} {c : Char}
    (h : containsSub s pat = true) : pat.count c ≤ s.count c := by
  rw [containsSub_iff] at h
  exact h.sublist.count_le c

theorem splitOnChar_of_not_mem {c : Char} {s : Str} (h : c ∉ s) :
    splitOnChar c s = [s] := by
  induction s with
  | nil => rfl
  | cons x xs ih =>
    have hx : ¬x = c := fun hc => h (hc ▸ List.mem_cons_self x xs)
    have hxs : c ∉ xs := fun hc => h (List.mem_cons_of_mem x hc)
    rw [splitOnChar, if_neg hx, ih hxs]

theorem splitOnChar_append {c : Char} {xs ys : Str} (h : c ∉ xs) :
    splitOnChar c (xs ++ c :: ys) = xs :: splitOnChar c ys := by
  induction xs with
  | nil =>
    show splitOnChar c (c :: ys) = [] :: splitOnChar c ys
    rw [splitOnChar, if_pos rfl]
  | cons x xt ih =>
    have hx : ¬x = c := fun hc => h (hc ▸ List.mem_cons_self x xt)
    have hxt : c ∉ xt := fun hc => h (List.mem_cons_of_mem x hc)
    show splitOnChar c (x :: (xt ++ c :: ys)) = (x :: xt) :: splitOnChar c ys
    rw [splitOnChar, if_neg hx, ih hxt]

theorem takeWhile_append_cons {p : Char → Bool} {xs ys : Str} {y : Char}
    (hxs : ∀ x ∈ xs, p x = true) (hy : p y = false) :
    (xs ++ y :: ys).takeWhile p = xs := by
  induction xs with
  | nil => simp [List.takeWhile_cons, hy]
  | cons x xt ih =>
    have hx : p x = true := hxs x (List.mem_cons_self x xt)
    have hxt : ∀ x ∈ xt, p x = true := fun a ha => hxs a (List.mem_cons_of_mem x ha)
    simp [List.takeWhile_cons, hx, ih hxt]

theorem dropWhile_append_cons {p : Char → Bool} {xs ys : Str} {y : Char}
    (hxs : ∀ x ∈ xs, p x = true) (hy : p y = false) :
    (xs ++ y :: ys).dropWhile p = y :: ys := by
  induction xs with
  | nil => simp [List.dropWhile_cons, hy]
  | cons x xt ih =>
    have hx : p x = true := hxs x (List.mem_cons_self x xt)
    have hxt : ∀ x ∈ xt, p x = true := fun a ha => hxs a (List.mem_cons_of_mem x ha)
    simp [List.dropWhile_cons, hx, ih hxt]

theorem splitFirst_of_not_mem {c : Char} {s : Str} (h : c ∉ s) :
    splitFirst c s = (s, [], false) := by
  induction s with
  | nil => rfl
  | cons x xs ih =>
    have hx : ¬x = c := fun hc => h (hc ▸ List.mem_cons_self x xs)
    have hxs : c ∉ xs := fun hc => h (List.mem_cons_of_mem x hc)
    simp [splitFirst, hx, ih hxs]

end PyStr

/-! ## Facts about the parse post-processing -/

theorem normalizeInfo_user (i : RepoInfo) : (normalizeInfo i).user = i.user := rfl

theorem normalizeInfo_repo (i : RepoInfo) : (normalizeInfo i).repo = i.repo := rfl

theorem normalizeInfo_branch (i : RepoInfo) : (normalizeInfo i).branch = i.branch := rfl

theorem normalizeInfo_sparse (i : RepoInfo) :
    (normalizeInfo i).sparse_path = i.sparse_path := rfl

theorem normalizeUrl_endsWith (u : Str) :
    endsWithL (normalizeUrl u) (chars ".git") = true := by
  unfold normalizeUrl
  by_cases h : endsWithL u (chars ".git") = true
  · simp [h]
  · have h' : endsWithL u (chars ".git") = false := Bool.eq_false_iff.mpr h
    simp only [h', Bool.not_false, if_true]
    exact endsWithL_append u (chars ".git")

theorem normalizeDest_endsWith (d : Str) :
    (endsWithL (normalizeDest d) (chars ".git") = true ↔
      endsWithL d (chars ".git.git") = true) := by
  have hsplit : chars ".git.git" = chars ".git" ++ chars ".git" := by decide
  unfold normalizeDest
  by_cases h : endsWithL d (chars ".git") = true
  · rcases endsWithL_iff.mp h with ⟨t, ht⟩
    have hlen : d.length - 4 = t.length := by
      rw [← ht, List.length_append]
      simp [chars]
    rw [if_pos h, hlen, ← ht, List.take_left, hsplit, endsWithL_append_cancel]
  · rw [if_neg h]
    constructor
    · intro hc
      exact absurd hc h
    · intro hc
      rcases endsWithL_iff.mp hc with ⟨t, ht⟩
      exfalso
      apply h
      rw [hsplit] at ht
      exact endsWithL_iff.mpr ⟨t ++ chars ".git", by rw [← ht]; simp⟩

theorem urlparseHttps_scheme (u : Str) : (urlparseHttps u).scheme = chars "https" := rfl

theorem sshRepoOf_ne_nil {tail : Str} (h : tail ≠ []) : sshRepoOf tail ≠ [] := by
  unfold sshRepoOf
  split
  · rename_i hc
    intro hnil
    have hlen := congrArg List.length hnil
    rw [List.length_take] at hlen
    simp only [List.length_nil] at hlen
    omega
  · exact h

/-! ## Claim theorems -/

/-- C1: evaluation of the code at the failing input.  `parse("user/repo")`
returns `remote_url = "https://github.com/user/repo.git"` as claimed, but
`local_dest = "github.com/user/repo"` — prefixed with the host — while the
claim and the repository's own `parser_test.py` expect `"user/repo"`. -/
theorem shorthand_parse_dest_dir_eval :
    parseRepoUrl (chars "user/repo") =
      .ok { url := chars "https://github.com/user/repo.git",
            dest_dir := chars "github.com/user/repo",
            user := chars "user", repo := chars "repo" } ∧
    chars "github.com/user/repo" ≠ chars "user/repo" := by decide

/-- C2: counterexample.  The shorthand input `user/x.git.git` is accepted by
`parse`, yet the returned `local_dest` still ends with `.git`, because the
normalization strips only one `.git` suffix. -/
theorem local_dest_git_suffix_cex :
    parseRepoUrl (chars "user/x.git.git") =
      .ok { url := chars "https://github.com/user/x.git.git",
            dest_dir := chars "github.com/user/x.git",
            user := chars "user", repo := chars "x.git.git" } ∧
    endsWithL (chars "github.com/user/x.git") (chars ".git") = true := by decide

/-- C2 (amended): for every input accepted by `parse`, `remote_url` always
ends with `.git`; `local_dest` ends with `.git` exactly when the destination
before normalization ended with a doubled `.git.git` suffix, since the
normalization strips exactly one trailing `.git`. -/
theorem parse_suffix_invariant (s : Str) (info₀ : RepoInfo)
    (h : parseFormat s = .ok info₀) :
    parseRepoUrl s = .ok (normalizeInfo info₀) ∧
    endsWithL (normalizeInfo info₀).url (chars ".git") = true ∧
    (endsWithL (normalizeInfo info₀).dest_dir (chars ".git") = true ↔
      endsWithL info₀.dest_dir (chars ".git.git") = true) := by
  refine ⟨?_, normalizeUrl_endsWith info₀.url, normalizeDest_endsWith info₀.dest_dir⟩
  rw [parseRepoUrl, h]
  rfl

/-- Witness for `parse_suffix_invariant` at the accepted input `user/repo`. -/
theorem parse_suffix_invariant_witness :
    parseRepoUrl (chars "user/repo") =
      .ok (normalizeInfo
        { url := chars "https://github.com/user/repo",
          dest_dir := chars "github.com/user/repo",
          user := chars "user", repo := chars "repo" }) ∧
    endsWithL (normalizeInfo
        { url := chars "https://github.com/user/repo",
          dest_dir := chars "github.com/user/repo",
          user := chars "user", repo := chars "repo" }).url (chars ".git") = true ∧
    (endsWithL (normalizeInfo
        { url := chars "https://github.com/user/repo",
          dest_dir := chars "github.com/user/repo",
          user := chars "user", repo := chars "repo" }).dest_dir (chars ".git") = true ↔
      endsWithL (chars "github.com/user/repo") (chars ".git.git") = true) :=
  parse_suffix_invariant (chars "user/repo") _ (by decide)

/-- C3: the fetch step picks its strategy in the priority order
full > sparse > depth > default treeless `tree:0` fetch; a sparse path
(empty string included) beats any depth value, and `full` beats both. -/
theorem fetch_strategy_priority (info : RepoInfo) (d : Option Int) :
    fetchCommands info d true = [chars "git fetch origin"] ∧
    (∀ p, info.sparse_path = some p → fetchCommands info d false = fetchSparseCommands p) ∧
    (info.sparse_path = none → ∀ k, d = some k →
      fetchCommands info d false =
        [chars "git fetch --depth=" ++ (toString k).data ++ chars " origin"]) ∧
    (info.sparse_path = none → d = none →
      fetchCommands info d false = [chars "git fetch --filter=tree:0 origin"]) := by
  refine ⟨rfl, ?_, ?_, ?_⟩
  · intro p hp
    simp [fetchCommands, hp]
  · intro hs k hk
    simp [fetchCommands, hs, hk]
  · intro hs hd
    simp [fetchCommands, hs, hd]

/-- Witness for `fetch_strategy_priority`: with both a sparse path and a depth
requested, the sparse strategy is applied and the depth is ignored. -/
theorem fetch_strategy_priority_witness :
    fetchCommands
      { url := [], dest_dir := [], user := [], repo := [],
        sparse_path := some (chars "src") } (some 3) false =
      fetchSparseCommands (chars "src") :=
  (fetch_strategy_priority
    { url := [], dest_dir := [], user := [], repo := [],
      sparse_path := some (chars "src") } (some 3)).2.1 (chars "src") rfl

/-- C4: counterexample.  With `sparse_path` equal to the empty string the
submodule step is NOT skipped: `clone` guards it with Python truthiness
(`if not self.repo_info.sparse_path`), which treats `""` like absence, so the
filtered submodule initialization runs. -/
theorem sparse_empty_submodule_cex :
    submodulePart
      { url := [], dest_dir := [], user := [], repo := [],
        sparse_path := some [] } none false =
      [chars "git submodule update --init --recursive --filter=tree:0"] ∧
    submodulePart
      { url := [], dest_dir := [], user := [], repo := [],
        sparse_path := some [] } none false ≠ [] := by decide

/-- C4 (amended): the submodule step is skipped exactly when `sparse_path` is
present AND non-empty; when it is absent or the empty string, submodules are
initialized fully recursively if `full` or `depth` was used, and with the
treeless `tree:0` filter otherwise. -/
theorem submodule_skip_amended (info : RepoInfo) (d : Option Int) (f : Bool) :
    cloneCommands info d f =
      initRepoCommands info ++ fetchCommands info d f ++ setupBranchCommands ++
        submodulePart info d f ∧
    (∀ p, info.sparse_path = some p → p ≠ [] → submodulePart info d f = []) ∧
    ((info.sparse_path = none ∨ info.sparse_path = some []) →
      ((f = true ∨ d ≠ none) →
        submodulePart info d f = [chars "git submodule update --init --recursive"]) ∧
      (f = false → d = none →
        submodulePart info d f =
          [chars "git submodule update --init --recursive --filter=tree:0"])) := by
  refine ⟨rfl, ?_, ?_⟩
  · intro p hp hne
    simp [submodulePart, pyTruthy, hp, List.isEmpty_iff, hne]
  · intro hcase
    constructor
    · intro hor
      rcases hcase with hc | hc <;> rcases hor with h1 | h1 <;>
        simp [submodulePart, pyTruthy, initSubmoduleCommands, hc, h1]
    · intro hf hd
      rcases hcase with hc | hc <;>
        simp [submodulePart, pyTruthy, initSubmoduleCommands, hc, hf, hd]

/-- Witness for `submodule_skip_amended`: a non-empty sparse path skips the
submodule step; an empty sparse path with neither full nor depth runs the
filtered initialization. -/
theorem submodule_skip_amended_witness :
    submodulePart
      { url := [], dest_dir := [], user := [], repo := [],
        sparse_path := some (chars "src") } none false = [] :=
  (submodule_skip_amended
    { url := [], dest_dir := [], user := [], repo := [],
      sparse_path := some (chars "src") } none false).2.1
    (chars "src") rfl (by decide)

/-- C5: when the destination already holds a repository, `main.clone` compares
the normalized existing remote against the normalized descriptor URL; on a
match it short-circuits (no command issued), on a mismatch it fails with the
conflict outcome, again with no command issued and the destination untouched.
`get_remote_url` and `_normalize_clone_url` are modelled from the spec, being
absent from the source tree. -/
theorem conflict_check (info : RepoInfo) (raw : Str) (d : Option Int) (f : Bool) :
    (get_remote_url raw = normalizeCloneUrl info.url →
      mainClone info true raw d f = (.alreadyCloned, [])) ∧
    (get_remote_url raw ≠ normalizeCloneUrl info.url →
      mainClone info true raw d f = (.conflict (get_remote_url raw), [])) := by
  constructor <;> intro h <;> simp [mainClone, h]

/-- Witness for `conflict_check`: the same canonical remote (behind a token
and a `.git` suffix) short-circuits; a different remote conflicts. -/
theorem conflict_check_witness :
    mainClone
      { url := chars "https://github.com/user/repo.git", dest_dir := [],
        user := [], repo := [] } true
      (chars "https://tok@github.com/user/repo.git") none false =
      (.alreadyCloned, []) ∧
    mainClone
      { url := chars "https://github.com/user/repo.git", dest_dir := [],
        user := [], repo := [] } true
      (chars "https://github.com/user/other.git") none false =
      (.conflict (get_remote_url (chars "https://github.com/user/other.git")), []) := by
  constructor
  · exact (conflict_check
      { url := chars "https://github.com/user/repo.git", dest_dir := [],
        user := [], repo := [] }
      (chars "https://tok@github.com/user/repo.git") none false).1 (by decide)
  · exact (conflict_check
      { url := chars "https://github.com/user/repo.git", dest_dir := [],
        user := [], repo := [] }
      (chars "https://github.com/user/other.git") none false).2 (by decide)

/-- C6: web URLs with branch references.  The `tree` form yields
`branch="main"`, `sparse_path="src"`; the `blob` form pointing at a root-level
file yields `branch="main"` and `sparse_path=""` (present, not absent); in
both cases `remote_url` is rebuilt from scheme, host, owner and repo only. -/
theorem https_tree_blob_parse :
    parseRepoUrl (chars "https://github.com/owner/repo/tree/main/src") =
      .ok { url := chars "https://github.com/owner/repo.git",
            dest_dir := chars "github.com/owner/repo",
            user := chars "owner", repo := chars "repo",
            branch := some (chars "main"), sparse_path := some (chars "src") } ∧
    parseRepoUrl (chars "https://github.com/owner/repo/blob/main/README.md") =
      .ok { url := chars "https://github.com/owner/repo.git",
            dest_dir := chars "github.com/owner/repo",
            user := chars "owner", repo := chars "repo",
            branch := some (chars "main"), sparse_path := some [] } := by decide

/-- C8: counterexample.  With the token present as the empty string and an
`https://github.com/...` URL every condition of the claim holds, yet
`inject_token` returns the URL unchanged (Python truthiness treats `""` like
absence) instead of inserting the user-info component. -/
theorem inject_empty_token_cex :
    inject_token (chars "https://github.com/a/b.git") (some []) =
      chars "https://github.com/a/b.git" ∧
    inject_token (chars "https://github.com/a/b.git") (some []) ≠
      chars "https://@github.com/a/b.git" := by decide

/-- C8 (amended): `inject_token` returns the URL unchanged unless the token is
present and non-empty, the URL starts with `https://`, and the URL's whole
authority component (netloc) is exactly `github.com`; when all hold the token
is inserted as the user-info component ahead of the host.  The function takes
only the URL string and token — the descriptor is not an input and is never
modified. -/
theorem inject_token_amended (url t : Str) :
    inject_token url none = url ∧
    inject_token url (some []) = url ∧
    (startsWithL url (chars "https://") = false → ∀ tok, inject_token url tok = url) ∧
    (startsWithL url (chars "https://") = true →
      (urlparseHttps url).netloc ≠ chars "github.com" →
      ∀ tok, inject_token url tok = url) ∧
    (t ≠ [] → startsWithL url (chars "https://") = true →
      (urlparseHttps url).netloc = chars "github.com" →
      inject_token url (some t) =
        urlunparse (chars "https") (t ++ '@' :: chars "github.com")
          (urlparseHttps url).path (urlparseHttps url).params
          (urlparseHttps url).query (urlparseHttps url).fragment) := by
  refine ⟨rfl, ?_, ?_, ?_, ?_⟩
  · simp [inject_token, pyTruthy]
  · intro hs tok
    simp [inject_token, hs]
  · intro hs hn tok
    cases tok with
    | none => simp [inject_token, pyTruthy]
    | some tk =>
      by_cases htk : tk = []
      · subst htk
        simp [inject_token, pyTruthy]
      · simp [inject_token, pyTruthy, hs, List.isEmpty_iff, htk, hn]
  · intro ht hs hn
    simp [inject_token, pyTruthy, hs, List.isEmpty_iff, ht, hn, urlparseHttps_scheme]

/-- Witness for `inject_token_amended`: an SSH-form URL is unchanged, a
non-GitHub host is unchanged, and on `github.com` the token is inserted. -/
theorem inject_token_amended_witness :
    inject_token (chars "git@github.com:user/repo.git") (some (chars "tok")) =
      chars "git@github.com:user/repo.git" ∧
    inject_token (chars "https://gitlab.com/user/repo.git") (some (chars "tok")) =
      chars "https://gitlab.com/user/repo.git" ∧
    inject_token (chars "https://github.com/user/repo.git") (some (chars "tok")) =
      urlunparse (chars "https") (chars "tok" ++ '@' :: chars "github.com")
        (urlparseHttps (chars "https://github.com/user/repo.git")).path
        (urlparseHttps (chars "https://github.com/user/repo.git")).params
        (urlparseHttps (chars "https://github.com/user/repo.git")).query
        (urlparseHttps (chars "https://github.com/user/repo.git")).fragment := by
  refine ⟨?_, ?_, ?_⟩
  · exact (inject_token_amended (chars "git@github.com:user/repo.git") (chars "tok")).2.2.1
      (by decide) (some (chars "tok"))
  · exact (inject_token_amended (chars "https://gitlab.com/user/repo.git")
      (chars "tok")).2.2.2.1 (by decide) (by decide) (some (chars "tok"))
  · exact (inject_token_amended (chars "https://github.com/user/repo.git")
      (chars "tok")).2.2.2.2 (by decide) (by decide) (by decide)

/-- C7: counterexample.  The shorthand input `user/` is accepted by `parse`
(it contains exactly one slash) and yields an empty `repo_name`, contradicting
the claimed non-emptiness invariant. -/
theorem empty_repo_accepted_cex :
    parseRepoUrl (chars "user/") =
      .ok { url := chars "https://github.com/user/.git",
            dest_dir := chars "github.com/user/",
            user := chars "user", repo := [] } := by decide

/-- C7 (amended): `owner` and `repo_name` are copied verbatim from the input's
path segments — shorthand inputs `u/r` yield exactly `owner = u`,
`repo_name = r` (so they are non-empty precisely when the input segments are),
SSH inputs always yield non-empty fields, and web inputs take the first two
slash-separated path segments with one `.git` suffix stripped from the repo. -/
theorem owner_repo_from_segments :
    (∀ u r : Str, '/' ∉ u → '/' ∉ r → '@' ∉ u → '@' ∉ r →
      (parseRepoUrl (u ++ '/' :: r)).map (fun i => (i.user, i.repo)) = .ok (u, r)) ∧
    (∀ s i, parseSsh s = .ok i → i.user ≠ [] ∧ i.repo ≠ []) ∧
    (∀ s i, parseHttps s = .ok i →
      i.user = (httpsParts s).getD 0 [] ∧
      i.repo = removesuffix ((httpsParts s).getD 1 []) (chars ".git")) := by
  refine ⟨?_, ?_, ?_⟩
  · intro u r hu1 hr1 hu2 hr2
    have hcount : (u ++ '/' :: r).count '/' = 1 := by
      rw [List.count_append, List.count_cons_self,
        List.count_eq_zero.mpr hu1, List.count_eq_zero.mpr hr1]
    have h1 : containsSub (u ++ '/' :: r) (chars "://") = false := by
      cases hb : containsSub (u ++ '/' :: r) (chars "://") with
      | false => rfl
      | true =>
        exfalso
        have := count_le_of_containsSub (c := '/') hb
        rw [hcount] at this
        exact absurd this (by decide)
    have h2 : containsSub (u ++ '/' :: r) (chars "@") = false := by
      cases hb : containsSub (u ++ '/' :: r) (chars "@") with
      | false => rfl
      | true =>
        exfalso
        have hm : '@' ∈ u ++ '/' :: r := containsSub_singleton_iff.mp hb
        rcases List.mem_append.mp hm with hm' | hm'
        · exact hu2 hm'
        · rcases List.mem_cons.mp hm' with hm'' | hm''
          · exact absurd hm'' (by decide)
          · exact hr2 hm''
    have h3 : containsSub (u ++ '/' :: r) (chars "/") = true :=
      containsSub_singleton_iff.mpr (List.mem_append.mpr (Or.inr (List.mem_cons_self _ _)))
    have hshape : shorthandShape (u ++ '/' :: r) = true := by
      simp [shorthandShape, h1, h2, h3]
    have hsplit : splitOnChar '/' (u ++ '/' :: r) = [u, r] := by
      rw [splitOnChar_append hu1, splitOnChar_of_not_mem hr1]
    rw [parseRepoUrl, parseFormat, if_pos hshape, parseShorthand,
      if_neg (by rw [hcount]; exact fun hne => hne rfl), hsplit]
    rfl
  · intro s i h
    simp only [parseSsh] at h
    split at h
    · exact absurd h (by simp)
    · split at h
      · exact absurd h (by simp)
      · split at h
        · exact absurd h (by simp)
        · rename_i hguard
          injection h with h'
          subst h'
          push_neg at hguard
          obtain ⟨hue, hslash, hte, htail⟩ := hguard
          refine ⟨?_, ?_⟩
          · intro hnil
            exact hue (List.isEmpty_iff.mpr hnil)
          · apply sshRepoOf_ne_nil
            intro hnil
            exact hte (List.isEmpty_iff.mpr hnil)
  · intro s i h
    simp only [parseHttps] at h
    split at h
    · exact absurd h (by simp)
    · split at h
      · exact absurd h (by simp)
      · have h' := (Except.ok.inj h).symm
        subst h'
        constructor
        · simp only [httpsInfo]
        · simp only [httpsInfo]

/-- Witness for `owner_repo_from_segments` at the shorthand input
`alice/proj`. -/
theorem owner_repo_from_segments_witness :
    (parseRepoUrl (chars "alice" ++ '/' :: chars "proj")).map
        (fun i => (i.user, i.repo)) = .ok (chars "alice", chars "proj") :=
  owner_repo_from_segments.1 (chars "alice") (chars "proj")
    (by decide) (by decide) (by decide) (by decide)

/-- C9: every shorthand-shaped input (no scheme separator, no `@`) with two or
more slashes is rejected with the explicit only-user-repo error, and every
input matching none of the three dispatch shapes is rejected with the
unsupported-format error; in both cases no descriptor is returned. -/
theorem invalid_format_rejected :
    (∀ s : Str, containsSub s (chars "://") = false →
      containsSub s (chars "@") = false → 2 ≤ s.count '/' →
      parseRepoUrl s = .error .shorthandTooManySlashes) ∧
    (∀ s : Str, shorthandShape s = false →
      startsWithL s (chars "https://") = false →
      startsWithL s (chars "git@") = false →
      parseRepoUrl s = .error .unsupportedFormat) := by
  constructor
  · intro s h1 h2 hc
    have hmem : '/' ∈ s := by
      have hpos : 0 < s.count '/' := lt_of_lt_of_le (by norm_num) hc
      exact List.count_pos_iff.mp hpos
    have hslash : containsSub s (chars "/") = true :=
      containsSub_singleton_iff.mpr hmem
    have hshape : shorthandShape s = true := by
      simp [shorthandShape, h1, h2, hslash]
    have hcount : s.count '/' ≠ 1 := by omega
    rw [parseRepoUrl, parseFormat, if_pos hshape, parseShorthand, if_pos hcount]
    rfl
  · intro s h1 h2 h3
    rw [parseRepoUrl, parseFormat, if_neg (by simp [h1]),
      if_neg (by simp [h2]), if_neg (by simp [h3])]
    rfl

/-- Witness for `invalid_format_rejected` at the two inputs named by the
claim. -/
theorem invalid_format_rejected_witness :
    parseRepoUrl (chars "org/user/repo") = .error .shorthandTooManySlashes ∧
    parseRepoUrl (chars "not-a-url") = .error .unsupportedFormat :=
  ⟨invalid_format_rejected.1 (chars "org/user/repo") (by decide) (by decide) (by decide),
   invalid_format_rejected.2 (chars "not-a-url") (by decide) (by decide) (by decide)⟩

section TreeBlobNoBranch

variable {h owner repo t : Str}

theorem mem_R_cases {x : Char}
    (hx : x ∈ h ++ ('/' :: (owner ++ ('/' :: (repo ++ ('/' :: t)))))) :
    x ∈ h ∨ x = '/' ∨ x ∈ owner ∨ x ∈ repo ∨ x ∈ t := by
  simp only [List.mem_append, List.mem_cons] at hx
  tauto

theorem drop8_https (R : Str) : (chars "https://" ++ R).drop 8 = R := by
  have hlen : (chars "https://").length = 8 := rfl
  rw [← hlen, List.drop_left]

theorem urlparse_clean (R : Str) (h9 : '#' ∉ R) (hq : '?' ∉ R) :
    urlparseHttps (chars "https://" ++ R) =
      ⟨chars "https", R.takeWhile (fun x => x ≠ '/'),
       (splitParams (R.dropWhile (fun x => x ≠ '/'))).1,
       (splitParams (R.dropWhile (fun x => x ≠ '/'))).2, [], []⟩ := by
  simp only [urlparseHttps, drop8_https, splitFirst_of_not_mem h9, splitFirst_of_not_mem hq]

theorem splitParams_no_semi {p : Str}
    (hs : ';' ∉ p.reverse.takeWhile (fun x => x ≠ '/')) :
    splitParams p = (p, []) := by
  have hs' : ';' ∉ (p.reverse.takeWhile (fun x => x ≠ '/')).reverse :=
    fun hm => hs (List.mem_reverse.mp hm)
  simp only [splitParams, splitFirst_of_not_mem hs']
  simp

theorem takeWhile_ne_of_append {c : Char} {xs ys : Str} (hx : c ∉ xs) :
    (xs ++ c :: ys).takeWhile (fun x => x ≠ c) = xs :=
  takeWhile_append_cons (fun x hxm => by simp; exact fun hc => hx (hc ▸ hxm)) (by simp)

theorem dropWhile_ne_of_append {c : Char} {xs ys : Str} (hx : c ∉ xs) :
    (xs ++ c :: ys).dropWhile (fun x => x ≠ c) = c :: ys :=
  dropWhile_append_cons (fun x hxm => by simp; exact fun hc => hx (hc ▸ hxm)) (by simp)

theorem reverse_cons_nested (X : Str) :
    ('/' :: X).reverse = X.reverse ++ ['/'] := by
  simp

theorem seg_of_last_concrete {t D : Str} (ht1 : '/' ∉ t) :
    (t.reverse ++ '/' :: D).takeWhile (fun x => x ≠ '/') = t.reverse :=
  takeWhile_ne_of_append (fun hm => ht1 (List.mem_reverse.mp hm))

theorem rstripChar_of_append_last {t D : Str} (htn : t ≠ []) (ht1 : '/' ∉ t) :
    rstripChar '/' ((t.reverse ++ '/' :: D).reverse) = (t.reverse ++ '/' :: D).reverse := by
  obtain ⟨e, es, hte⟩ : ∃ e es, t.reverse = e :: es := by
    cases htr : t.reverse with
    | nil =>
      exfalso
      apply htn
      have := congrArg List.reverse htr
      simpa using this
    | cons e es => exact ⟨e, es, rfl⟩
  have he : e ≠ '/' := by
    intro hc
    apply ht1
    rw [← List.mem_reverse, hte]
    exact hc ▸ List.mem_cons_self e es
  unfold rstripChar
  rw [List.reverse_reverse, hte]
  rw [show (e :: es ++ '/' :: D).dropWhile (fun x => x = '/') = e :: es ++ '/' :: D from by
    rw [List.cons_append, List.dropWhile_cons]
    simp [he]]

theorem httpsParts_three_segments
    (hhs : '/' ∉ h) (hhq : '?' ∉ h) (hhh : '#' ∉ h)
    (how : owner ≠ []) (ho1 : '/' ∉ owner) (ho2 : '?' ∉ owner) (ho3 : '#' ∉ owner)
    (hr1 : '/' ∉ repo) (hr2 : '?' ∉ repo) (hr3 : '#' ∉ repo)
    (htn : t ≠ []) (ht1 : '/' ∉ t) (ht2 : '?' ∉ t) (ht3 : '#' ∉ t) (ht4 : ';' ∉ t) :
    (urlparseHttps (chars "https://" ++
      (h ++ ('/' :: (owner ++ ('/' :: (repo ++ ('/' :: t)))))))).netloc = h ∧
    httpsParts (chars "https://" ++
      (h ++ ('/' :: (owner ++ ('/' :: (repo ++ ('/' :: t))))))) = [owner, repo, t] := by
  have h9 : '#' ∉ h ++ ('/' :: (owner ++ ('/' :: (repo ++ ('/' :: t))))) := by
    intro hm
    rcases mem_R_cases hm with hc | hc | hc | hc | hc
    · exact hhh hc
    · exact absurd hc (by decide)
    · exact ho3 hc
    · exact hr3 hc
    · exact ht3 hc
  have hq : '?' ∉ h ++ ('/' :: (owner ++ ('/' :: (repo ++ ('/' :: t))))) := by
    intro hm
    rcases mem_R_cases hm with hc | hc | hc | hc | hc
    · exact hhq hc
    · exact absurd hc (by decide)
    · exact ho2 hc
    · exact hr2 hc
    · exact ht2 hc
  have hurl := urlparse_clean (h ++ ('/' :: (owner ++ ('/' :: (repo ++ ('/' :: t)))))) h9 hq
  have htake : (h ++ ('/' :: (owner ++ ('/' :: (repo ++ ('/' :: t)))))).takeWhile
      (fun x => x ≠ '/') = h := takeWhile_ne_of_append hhs
  have hdropw : (h ++ ('/' :: (owner ++ ('/' :: (repo ++ ('/' :: t)))))).dropWhile
      (fun x => x ≠ '/') = '/' :: (owner ++ ('/' :: (repo ++ ('/' :: t)))) :=
    dropWhile_ne_of_append hhs
  have hprev : ('/' :: (owner ++ ('/' :: (repo ++ ('/' :: t))))).reverse =
      t.reverse ++ '/' :: (repo.reverse ++ '/' :: (owner.reverse ++ ['/'])) := by
    simp [List.reverse_cons, List.reverse_append, List.append_assoc]
  have hsp : splitParams ('/' :: (owner ++ ('/' :: (repo ++ ('/' :: t))))) =
      ('/' :: (owner ++ ('/' :: (repo ++ ('/' :: t)))), []) := by
    apply splitParams_no_semi
    rw [hprev, seg_of_last_concrete ht1]
    intro hm
    exact ht4 (List.mem_reverse.mp hm)
  have hXrev : (owner ++ ('/' :: (repo ++ ('/' :: t)))).reverse =
      t.reverse ++ '/' :: (repo.reverse ++ '/' :: owner.reverse) := by
    simp [List.reverse_append, List.append_assoc]
  obtain ⟨o, ow, hoe⟩ : ∃ o ow, owner = o :: ow := by
    cases owner with
    | nil => exact absurd rfl how
    | cons o ow => exact ⟨o, ow, rfl⟩
  have ho : ¬o = '/' := by
    intro hc
    apply ho1
    rw [hoe, hc]
    exact List.mem_cons_self _ _
  have hstrip : stripChar '/' ('/' :: (owner ++ ('/' :: (repo ++ ('/' :: t))))) =
      owner ++ ('/' :: (repo ++ ('/' :: t))) := by
    unfold stripChar lstripChar
    rw [List.dropWhile_cons, if_pos (by simp)]
    rw [hoe, List.cons_append, List.dropWhile_cons, if_neg (by simp [ho]),
      ← List.cons_append, ← hoe]
    conv_lhs =>
      rw [← List.reverse_reverse (owner ++ ('/' :: (repo ++ ('/' :: t)))), hXrev]
    rw [rstripChar_of_append_last htn ht1, ← hXrev, List.reverse_reverse]
  have hsplit : splitOnChar '/' (owner ++ ('/' :: (repo ++ ('/' :: t)))) =
      [owner, repo, t] := by
    rw [splitOnChar_append ho1, splitOnChar_append hr1, splitOnChar_of_not_mem ht1]
  constructor
  · rw [hurl]
    exact htake
  · simp only [httpsParts, hurl, hdropw, hsp, hstrip, hsplit]

/-- C10: a web URL on a supported host whose path has exactly three segments,
the third being `tree` or `blob` with no branch segment after it (for example
`https://github.com/owner/repo/tree`), parses successfully and returns a
descriptor with `branch` absent and `sparse_path` absent. -/
theorem tree_blob_without_branch (h owner repo t : Str)
    (hh : h = chars "github.com" ∨ h = chars "gitlab.com")
    (ht : t = chars "tree" ∨ t = chars "blob")
    (how : owner ≠ []) (ho1 : '/' ∉ owner) (ho2 : '?' ∉ owner) (ho3 : '#' ∉ owner)
    (hr1 : '/' ∉ repo) (hr2 : '?' ∉ repo) (hr3 : '#' ∉ repo) :
    (parseRepoUrl (chars "https://" ++ (h ++ ('/' :: (owner ++ ('/' :: (repo ++ ('/' :: t)))))))).map
      (fun i => (i.branch, i.sparse_path)) = .ok (none, none) := by
  have hhs : '/' ∉ h := by rcases hh with rfl | rfl <;> decide
  have hhq : '?' ∉ h := by rcases hh with rfl | rfl <;> decide
  have hhh : '#' ∉ h := by rcases hh with rfl | rfl <;> decide
  have htn : t ≠ [] := by rcases ht with rfl | rfl <;> decide
  have ht1 : '/' ∉ t := by rcases ht with rfl | rfl <;> decide
  have ht2 : '?' ∉ t := by rcases ht with rfl | rfl <;> decide
  have ht3 : '#' ∉ t := by rcases ht with rfl | rfl <;> decide
  have ht4 : ';' ∉ t := by rcases ht with rfl | rfl <;> decide
  obtain ⟨hnet, hparts⟩ :=
    httpsParts_three_segments hhs hhq hhh how ho1 ho2 ho3 hr1 hr2 hr3 htn ht1 ht2 ht3 ht4
  have hcontains : containsSub (chars "https://" ++ (h ++ ('/' :: (owner ++ ('/' :: (repo ++ ('/' :: t))))))) (chars "://") = true :=
    containsSub_append_right _ (by decide)
  have hshape : shorthandShape (chars "https://" ++ (h ++ ('/' :: (owner ++ ('/' :: (repo ++ ('/' :: t))))))) = false := by
    simp [shorthandShape, hcontains]
  have hstart : startsWithL (chars "https://" ++ (h ++ ('/' :: (owner ++ ('/' :: (repo ++ ('/' :: t))))))) (chars "https://") = true :=
    startsWithL_append _ _
  have hhost : ¬((urlparseHttps (chars "https://" ++ (h ++ ('/' :: (owner ++ ('/' :: (repo ++ ('/' :: t)))))))).netloc ≠ chars "github.com" ∧
      (urlparseHttps (chars "https://" ++ (h ++ ('/' :: (owner ++ ('/' :: (repo ++ ('/' :: t)))))))).netloc ≠ chars "gitlab.com") := by
    rw [hnet]
    rcases hh with rfl | rfl <;> simp
  have hlen : ¬(httpsParts (chars "https://" ++ (h ++ ('/' :: (owner ++ ('/' :: (repo ++ ('/' :: t)))))))).length < 2 := by
    rw [hparts]
    simp
  have hbr : (httpsInfo (chars "https://" ++ (h ++ ('/' :: (owner ++ ('/' :: (repo ++ ('/' :: t)))))))).branch = none := by
    simp only [httpsInfo, hparts]
    simp
  have hsp2 : (httpsInfo (chars "https://" ++ (h ++ ('/' :: (owner ++ ('/' :: (repo ++ ('/' :: t)))))))).sparse_path = none := by
    simp only [httpsInfo, hparts]
    simp
  rw [parseRepoUrl, parseFormat, if_neg (by simp [hshape]), if_pos hstart]
  simp only [parseHttps, if_neg hhost, if_neg hlen]
  simp only [Except.map]
  rw [normalizeInfo_branch, normalizeInfo_sparse, hbr, hsp2]

/-- Witness for `tree_blob_without_branch` at
`https://github.com/owner/repo/tree`. -/
theorem tree_blob_without_branch_witness :
    (parseRepoUrl (chars "https://" ++ (chars "github.com" ++
        ('/' :: (chars "owner" ++ ('/' :: (chars "repo" ++ ('/' :: chars "tree")))))))).map
      (fun i => (i.branch, i.sparse_path)) = .ok (none, none) :=
  tree_blob_without_branch (chars "github.com") (chars "owner") (chars "repo")
    (chars "tree") (Or.inl rfl) (Or.inl rfl) (by decide) (by decide) (by decide)
    (by decide) (by decide) (by decide) (by decide)

end TreeBlobNoBranch

